import Mathlib

/-!
Shallow embedding of the `nasadem` crate (`src/lib.rs`): parsers for NASA
Digital Elevation Model tiles.

Modelling conventions:

* `f64` values are represented as exact rationals (`ℚ`).  Every Rust
  floating-point operation is embedded as the exact rational operation
  followed by `round64`, the IEEE-754 binary64 round-to-nearest, ties-to-even
  rounding of a rational to 53 significant bits.  This is exact for every
  value that occurs in the program (all are normal, far from overflow and
  underflow).  Conversions `i32 as f64` are exact (|i32| < 2^53) and are
  embedded as plain casts; `usize as f64` rounds and is embedded as `round64`.
* Machine integers: `usize` values are naturals; the one place where release
  Rust can underflow (`3600 - idx / 3601` in `idx_to_pont`) is embedded with
  the release-mode wrapping semantics, explicitly modulo `2 ^ 64`.
  `debug_assert!` lines are no-ops outside debug builds and are omitted.
* Byte sources (`impl Read`) are lists of bytes; a read past the end of the
  list is the model of an I/O error (`None`).  Fallible loaders return the
  resulting tile state together with `Option` of the remaining stream:
  `none` models an early `Err` return, in which case the tile state is the
  state at the moment of the return.
-/

/-- Round a rational to the nearest integer, ties to even
(the rounding of an IEEE-754 mantissa). -/
def rnEven (x : ℚ) : ℤ :=
  let f := ⌊x⌋
  let r := x - (f : ℚ)
  if r < 1 / 2 then f
  else if 1 / 2 < r then f + 1
  else if f % 2 = 0 then f else f + 1

/-- The binade exponent of a positive rational: the unique `e` with
`2 ^ e ≤ q < 2 ^ (e + 1)`, computed correctly for every `q ≥ 2 ^ (-1100)`
(far below the smallest positive normal binary64 value). -/
def floorLog2 (q : ℚ) : ℤ :=
  (Nat.log2 (⌊q * 2 ^ 1100⌋.toNat) : ℤ) - 1100

/-- IEEE-754 binary64 rounding of a rational: round to nearest, ties to even,
53 significant bits.  Exponent range is unbounded, which agrees with binary64
on every normal, non-overflowing value. -/
def round64 (q : ℚ) : ℚ :=
  if q = 0 then 0
  else
    let e : ℤ := floorLog2 |q| - 52
    let m : ℤ := rnEven (|q| / 2 ^ e)
    if q < 0 then -((m : ℚ) * 2 ^ e) else (m : ℚ) * 2 ^ e

/-- Rust `f64` addition: exact sum, correctly rounded. -/
def f64add (a b : ℚ) : ℚ := round64 (a + b)

/-- Rust `f64` division: exact quotient, correctly rounded. -/
def f64div (a b : ℚ) : ℚ := round64 (a / b)

/-- `type DEMMatrix<T> = Vec<T>;` -/
abbrev DEMMatrix (α : Type) := List α

/-- `struct NASADEM` — the tile: integer-degree southwest corner
(`Point<i32>`, modelled as a pair (x = lon, y = lat)), plus the two optional
sample grids. -/
structure NASADEM where
  southwest_corner : ℤ × ℤ
  elevation : Option (DEMMatrix ℕ)
  water : Option (DEMMatrix Bool)
deriving DecidableEq

/-- `NASADEM::new` — both grids start absent. -/
def NASADEM.new (southwest_corner : ℤ × ℤ) : NASADEM :=
  { southwest_corner, elevation := none, water := none }

/-- `src.read_u16::<BE>()` — consume two bytes, big-endian; `none` models the
I/O error when the source is exhausted. -/
def readU16BE (src : List ℕ) : Option (ℕ × List ℕ) :=
  match src with
  | b1 :: b2 :: rest => some (b1 * 256 + b2, rest)
  | _ => none

/-- The elevation loop of `NASADEM::add_elevation`: read `n` big-endian `u16`
samples into a local buffer (the Rust loop also recomputes per-cell
coordinates purely for `debug_assert!`s, which are no-ops in release and are
omitted).  `none` models the `?` early return on a failed read. -/
def readElevation : ℕ → List ℕ → Option (List ℕ × List ℕ)
  | 0, src => some ([], src)
  | n + 1, src =>
    match readU16BE src with
    | none => none
    | some (v, rest) =>
      match readElevation n rest with
      | none => none
      | some (vs, rest') => some (v :: vs, rest')

/-- `NASADEM::add_elevation` — reads 3601×3601 samples into a local vector
and only then stores it in `self.elevation`; on a read failure the `?`
operator returns early, before `self` is touched.  The returned pair is
(tile state after the call, `some` remaining stream on success / `none` on
error). -/
def NASADEM.add_elevation (dem : NASADEM) (src : List ℕ) :
    NASADEM × Option (List ℕ) :=
  match readElevation (3601 * 3601) src with
  | none => (dem, none)
  | some (samples, rest) => ({ dem with elevation := some samples }, some rest)

/-- The water loop of `NASADEM::add_water`: read `n` single-byte samples,
storing `sample == 255`.  The Rust loop's `debug_assert!(sample == 0 ||
sample == 255)` is a no-op in release and is omitted: any other byte is
silently coerced. -/
def readWater : ℕ → List ℕ → Option (List Bool × List ℕ)
  | 0, src => some ([], src)
  | n + 1, src =>
    match src with
    | [] => none
    | b :: rest =>
      match readWater n rest with
      | none => none
      | some (vs, rest') => some ((b == 255) :: vs, rest')

/-- `NASADEM::add_water` — same shape as `add_elevation`. -/
def NASADEM.add_water (dem : NASADEM) (src : List ℕ) :
    NASADEM × Option (List ℕ) :=
  match readWater (3601 * 3601) src with
  | none => (dem, none)
  | some (samples, rest) => ({ dem with water := some samples }, some rest)

/-- `pub fn idx_to_pont(sw_corner: &Point<i32>, idx: usize) -> Point<f64>`.
The `debug_assert!(idx < 3601 * 3601)` is a no-op in release.  In release the
`usize` subtraction `3600 - (idx / 3601)` wraps modulo `2 ^ 64` on underflow,
which the first line makes explicit (for `idx / 3601 ≤ 3600` it is the plain
difference).  `y as f64` is `round64` (exact while `y ≤ 3600`); the `i32`
coordinates cast to `f64` exactly. -/
def idx_to_pont (sw_corner : ℤ × ℤ) (idx : ℕ) : ℚ × ℚ :=
  let y : ℕ := (3600 + 2 ^ 64 - idx / 3601) % 2 ^ 64
  let lat_south : ℚ := f64add (sw_corner.2 : ℚ) (f64div (round64 (y : ℚ)) 3601)
  let x : ℕ := idx % 3601
  let lon_west : ℚ := f64add (sw_corner.1 : ℚ) (f64div (round64 (x : ℚ)) 3601)
  (lon_west, lat_south)

/-- `pub struct DEMBox` — one cell record; the fields are also the public
accessors `southwest_corner`, `elevation`, `is_water`. -/
structure DEMBox where
  southwest_corner : ℚ × ℚ
  elevation : Option ℕ
  is_water : Option Bool
deriving DecidableEq

/-- `struct Iter<'a>` — the iterator state: the borrowed tile and cursor. -/
structure Iter where
  dem : NASADEM
  idx : ℕ
deriving DecidableEq

/-- `NASADEM::iter` — a fresh cursor at index 0. -/
def NASADEM.iter (dem : NASADEM) : Iter := { dem, idx := 0 }

/-- `Iterator::next for Iter` — one step: below 3601×3601 yield the cell for
the current index and advance, otherwise the iterator is exhausted.
`e[self.idx]` / `w[self.idx]` are in bounds whenever the grid was produced by
a loader (length 3601×3601); `getD` is that in-bounds lookup. -/
def Iter.next (it : Iter) : Option (DEMBox × Iter) :=
  if it.idx < 3601 * 3601 then
    some
      ({ southwest_corner := idx_to_pont it.dem.southwest_corner it.idx
         elevation := it.dem.elevation.map fun e => e.getD it.idx 0
         is_water := it.dem.water.map fun w => w.getD it.idx false },
       { dem := it.dem, idx := it.idx + 1 })
  else
    none

/-- The state reached after one call to `next` (the yielded item dropped). -/
def Iter.advance (it : Iter) : Iter :=
  match it.next with
  | some p => p.2
  | none => it

/-- `geo_types::Polygon` restricted to what `DEMBox::polygon` builds: an
exterior ring and a list of interior rings. -/
structure Polygon where
  exterior : List (ℚ × ℚ)
  interiors : List (List (ℚ × ℚ))
deriving DecidableEq

/-- `DEMBox::polygon` — the closed 5-point ring SW, SE, NE, NW, SW with the
east/north neighbours at `+ 1.0 / 3601.0` (the `f64` constant), and no
interior rings (`Vec::new()`). -/
def DEMBox.polygon (b : DEMBox) : Polygon :=
  let lat_south := b.southwest_corner.2
  let lat_north := f64add lat_south (f64div 1 3601)
  let lon_west := b.southwest_corner.1
  let lon_east := f64add lon_west (f64div 1 3601)
  { exterior :=
      [(lon_west, lat_south), (lon_east, lat_south), (lon_east, lat_north),
       (lon_west, lat_north), (lon_west, lat_south)]
    interiors := [] }

/-- Modelled from the spec: the repository has no inverse of `idx_to_pont`;
the spec's round-trip property maps a point back to "the nearest lattice
index".  Row and column are recovered by rounding the (exact) scaled offsets
from the tile anchor to the nearest integer, and recombined the way the
storage order lays indices out. -/
def nearestIdx (sw_corner : ℤ × ℤ) (p : ℚ × ℚ) : ℕ :=
  let col := (round ((p.1 - (sw_corner.1 : ℚ)) * 3601)).toNat
  let row := (round ((p.2 - (sw_corner.2 : ℚ)) * 3601)).toNat
  (3600 - row) * 3601 + col

/-- The 3601×3601 lattice of cell southwest corners of the tile anchored at
`sw_corner`: row `r` and column `c` offsets of `r / 3601` and `c / 3601`
degrees, as computed in `f64` by `idx_to_pont`. -/
def latticeF (sw_corner : ℤ × ℤ) : Set (ℚ × ℚ) :=
  { p | ∃ r c : ℕ, r ≤ 3600 ∧ c ≤ 3600 ∧
      p = (f64add (sw_corner.1 : ℚ) (f64div (c : ℚ) 3601),
           f64add (sw_corner.2 : ℚ) (f64div (r : ℚ) 3601)) }

/-! ### Facts about the binary64 rounding model -/

theorem two_zpow_pos (e : ℤ) : (0 : ℚ) < 2 ^ e := zpow_pos (by norm_num) e

theorem two_zpow_ne_zero (e : ℤ) : (2 : ℚ) ^ e ≠ 0 := (two_zpow_pos e).ne'

theorem two_zpow_neg1100_le_one : (2 : ℚ) ^ (-1100 : ℤ) ≤ 1 := by
  have h := (zpow_le_zpow_iff_right₀ (by norm_num : (1 : ℚ) < 2)).mpr
    (by norm_num : (-1100 : ℤ) ≤ 0)
  simpa using h

theorem two_pow_nat_eq_zpow (n : ℕ) : (2 : ℚ) ^ n = 2 ^ (n : ℤ) :=
  (zpow_natCast (2 : ℚ) n).symm

theorem two_pow_1100 : (2 : ℚ) ^ (1100 : ℕ) = 2 ^ (1100 : ℤ) := by
  rw [two_pow_nat_eq_zpow]; norm_num

/-- `floorLog2` is correct on `[2 ^ (-1100), ∞)`: it lands in the binade. -/
theorem floorLog2_spec {q : ℚ} (h1 : (2 : ℚ) ^ (-1100 : ℤ) ≤ q) :
    (2 : ℚ) ^ floorLog2 q ≤ q ∧ q < 2 ^ (floorLog2 q + 1) := by
  have hB : (0 : ℚ) < 2 ^ (1100 : ℕ) := by positivity
  have hBz : (2 : ℚ) ^ (-1100 : ℤ) * 2 ^ (1100 : ℕ) = 1 := by
    rw [two_pow_nat_eq_zpow, ← zpow_add₀ (by norm_num : (2 : ℚ) ≠ 0)]
    norm_num
  have hq1 : (1 : ℚ) ≤ q * 2 ^ (1100 : ℕ) := by
    calc (1 : ℚ) = 2 ^ (-1100 : ℤ) * 2 ^ (1100 : ℕ) := hBz.symm
    _ ≤ q * 2 ^ (1100 : ℕ) := mul_le_mul_of_nonneg_right h1 hB.le
  have hfl1 : (1 : ℤ) ≤ ⌊q * 2 ^ 1100⌋ := by
    rw [Int.le_floor]; exact_mod_cast hq1
  have hcast : ((⌊q * 2 ^ 1100⌋.toNat : ℤ)) = ⌊q * 2 ^ 1100⌋ :=
    Int.toNat_of_nonneg (by omega)
  set n := ⌊q * 2 ^ 1100⌋.toNat with hn
  have hne : n ≠ 0 := by omega
  have hlow : (2 : ℕ) ^ Nat.log2 n ≤ n := by
    rw [Nat.log2_eq_log_two]; exact Nat.pow_log_le_self 2 hne
  have hhigh : n + 1 ≤ 2 ^ (Nat.log2 n + 1) := by
    rw [Nat.log2_eq_log_two]; exact Nat.lt_pow_succ_log_self (by norm_num) n
  have hlowq : (2 : ℚ) ^ (Nat.log2 n : ℤ) ≤ q * 2 ^ (1100 : ℕ) := by
    have h2n : ((n : ℚ)) ≤ q * 2 ^ (1100 : ℕ) := by
      have hfloor := Int.floor_le (q * 2 ^ (1100 : ℕ))
      calc ((n : ℚ)) = ((⌊q * 2 ^ 1100⌋ : ℤ) : ℚ) := by exact_mod_cast hcast
      _ ≤ q * 2 ^ (1100 : ℕ) := hfloor
    calc (2 : ℚ) ^ (Nat.log2 n : ℤ) = ((2 ^ Nat.log2 n : ℕ) : ℚ) := by
          rw [zpow_natCast]; push_cast; ring
    _ ≤ (n : ℚ) := by exact_mod_cast hlow
    _ ≤ q * 2 ^ (1100 : ℕ) := h2n
  have hhighq : q * 2 ^ (1100 : ℕ) < (2 : ℚ) ^ ((Nat.log2 n : ℤ) + 1) := by
    have h2n : q * 2 ^ (1100 : ℕ) < (n : ℚ) + 1 := by
      have hfloor := Int.lt_floor_add_one (q * 2 ^ (1100 : ℕ))
      calc q * 2 ^ (1100 : ℕ) < ((⌊q * 2 ^ 1100⌋ : ℤ) : ℚ) + 1 := hfloor
      _ = (n : ℚ) + 1 := by rw [← hcast]; push_cast; ring
    have h3n : ((n : ℚ)) + 1 ≤ (2 : ℚ) ^ ((Nat.log2 n : ℤ) + 1) := by
      have hc : ((n + 1 : ℕ) : ℚ) ≤ ((2 ^ (Nat.log2 n + 1) : ℕ) : ℚ) := by
        exact_mod_cast hhigh
      calc ((n : ℚ)) + 1 = ((n + 1 : ℕ) : ℚ) := by push_cast; ring
      _ ≤ ((2 ^ (Nat.log2 n + 1) : ℕ) : ℚ) := hc
      _ = (2 : ℚ) ^ ((Nat.log2 n : ℤ) + 1) := by
          push_cast
          rw [← zpow_natCast (2 : ℚ) (Nat.log2 n + 1)]
          push_cast
          ring_nf
    linarith
  have hfl : floorLog2 q = (Nat.log2 n : ℤ) - 1100 := rfl
  constructor
  · rw [hfl, zpow_sub₀ (by norm_num : (2 : ℚ) ≠ 0),
      div_le_iff₀ (by positivity : (0 : ℚ) < (2 : ℚ) ^ (1100 : ℤ))]
    calc (2 : ℚ) ^ (Nat.log2 n : ℤ) ≤ q * 2 ^ (1100 : ℕ) := hlowq
    _ = q * 2 ^ (1100 : ℤ) := by rw [two_pow_1100]
  · rw [hfl]
    have heq : (Nat.log2 n : ℤ) - 1100 + 1 = ((Nat.log2 n : ℤ) + 1) - 1100 := by ring
    rw [heq, zpow_sub₀ (by norm_num : (2 : ℚ) ≠ 0),
      lt_div_iff₀ (by positivity : (0 : ℚ) < (2 : ℚ) ^ (1100 : ℤ))]
    calc q * 2 ^ (1100 : ℤ) = q * 2 ^ (1100 : ℕ) := by rw [two_pow_1100]
    _ < (2 : ℚ) ^ ((Nat.log2 n : ℤ) + 1) := hhighq

/-- The binade exponent is unique, so `floorLog2` can be pinned down by
exhibiting the enclosing binade. -/
theorem floorLog2_eq_of {q : ℚ} {e : ℤ} (h1 : (2 : ℚ) ^ e ≤ q)
    (h2 : q < 2 ^ (e + 1)) (hlow : (2 : ℚ) ^ (-1100 : ℤ) ≤ q) :
    floorLog2 q = e := by
  obtain ⟨hs1, hs2⟩ := floorLog2_spec hlow
  have ha : floorLog2 q < e + 1 := by
    have := lt_of_le_of_lt hs1 h2
    exact (zpow_lt_zpow_iff_right₀ (by norm_num : (1 : ℚ) < 2)).mp this
  have hb : e < floorLog2 q + 1 := by
    have := lt_of_le_of_lt h1 hs2
    exact (zpow_lt_zpow_iff_right₀ (by norm_num : (1 : ℚ) < 2)).mp this
  omega

/-- `rnEven` is pinned down on the open half-unit interval around an integer
(ties cannot occur there). -/
theorem rnEven_eq_of {x : ℚ} {m : ℤ} (h1 : (m : ℚ) - 1 / 2 < x)
    (h2 : x < (m : ℚ) + 1 / 2) : rnEven x = m := by
  rcases le_or_lt (m : ℚ) x with hge | hlt
  · have hfl : ⌊x⌋ = m := by
      rw [Int.floor_eq_iff]
      exact ⟨hge, by push_cast; linarith⟩
    simp only [rnEven, hfl]
    rw [if_pos (by push_cast; linarith : x - ((m : ℤ) : ℚ) < 1 / 2)]
  · have hfl : ⌊x⌋ = m - 1 := by
      rw [Int.floor_eq_iff]
      constructor
      · push_cast; linarith
      · push_cast; linarith
    simp only [rnEven, hfl]
    rw [if_neg (by push_cast; linarith : ¬(x - ((m - 1 : ℤ) : ℚ) < 1 / 2)),
      if_pos (by push_cast; linarith : (1 : ℚ) / 2 < x - ((m - 1 : ℤ) : ℚ))]
    omega

theorem rnEven_err (x : ℚ) : |(rnEven x : ℚ) - x| ≤ 1 / 2 := by
  have h1 : (⌊x⌋ : ℚ) ≤ x := Int.floor_le x
  have h2 : x < ⌊x⌋ + 1 := Int.lt_floor_add_one x
  simp only [rnEven]
  split_ifs with ha hb hc
  all_goals rw [abs_le]; push_cast; constructor <;> linarith

theorem rnEven_intCast (m : ℤ) : rnEven (m : ℚ) = m :=
  rnEven_eq_of (by linarith) (by linarith)

theorem round64_zero : round64 0 = 0 := by simp [round64]

theorem round64_of_pos {q : ℚ} (h : 0 < q) :
    round64 q =
      (rnEven (q / 2 ^ (floorLog2 q - 52)) : ℚ) * 2 ^ (floorLog2 q - 52) := by
  simp only [round64, abs_of_pos h]
  rw [if_neg h.ne', if_neg (not_lt.mpr h.le)]

theorem round64_neg (q : ℚ) : round64 (-q) = -round64 q := by
  rcases lt_trichotomy q 0 with hneg | hzero | hpos
  · have hq : q ≠ 0 := hneg.ne
    have hnq : (0 : ℚ) < -q := by linarith
    simp only [round64, abs_neg, if_neg hq, if_neg hnq.ne',
      if_neg (not_lt.mpr hnq.le), if_pos hneg]
    ring
  · simp [hzero, round64]
  · have hq : q ≠ 0 := hpos.ne'
    have hnq : -q < 0 := by linarith
    simp only [round64, abs_neg, if_neg hq, if_neg hnq.ne, if_pos hnq,
      if_neg (not_lt.mpr hpos.le)]

theorem round64_err_pos {q : ℚ} {k : ℤ} (h0 : 0 < q)
    (hlow : (2 : ℚ) ^ (-1100 : ℤ) ≤ q) (hk : q < 2 ^ (k + 1)) :
    |round64 q - q| ≤ 2 ^ (k - 53) := by
  obtain ⟨hs1, hs2⟩ := floorLog2_spec hlow
  have hfk : floorLog2 q ≤ k := by
    have hlt := lt_of_le_of_lt hs1 hk
    have := (zpow_lt_zpow_iff_right₀ (by norm_num : (1 : ℚ) < 2)).mp hlt
    omega
  rw [round64_of_pos h0]
  obtain ⟨e, he⟩ : ∃ e, floorLog2 q - 52 = e := ⟨_, rfl⟩
  rw [he]
  have hpe : (0 : ℚ) < 2 ^ e := two_zpow_pos e
  calc |(rnEven (q / 2 ^ e) : ℚ) * 2 ^ e - q|
      = |((rnEven (q / 2 ^ e) : ℚ) - q / 2 ^ e) * 2 ^ e| := by
        rw [sub_mul, div_mul_cancel₀ q (two_zpow_ne_zero e)]
  _ = |(rnEven (q / 2 ^ e) : ℚ) - q / 2 ^ e| * 2 ^ e := by
        rw [abs_mul, abs_of_pos hpe]
  _ ≤ 1 / 2 * 2 ^ e := mul_le_mul_of_nonneg_right (rnEven_err _) hpe.le
  _ = 2 ^ (e - 1) := by
        rw [zpow_sub₀ (by norm_num : (2 : ℚ) ≠ 0), zpow_one]; ring
  _ ≤ 2 ^ (k - 53) := by
        apply (zpow_le_zpow_iff_right₀ (by norm_num : (1 : ℚ) < 2)).mpr
        omega

/-- The rounding error bound, any sign: if `|q| < 2 ^ (k + 1)` then rounding
moves `q` by at most `2 ^ (k - 53)` (half an ulp of the binade top). -/
theorem round64_err {q : ℚ} {k : ℤ}
    (h0 : q = 0 ∨ (2 : ℚ) ^ (-1100 : ℤ) ≤ |q|) (hk : |q| < 2 ^ (k + 1)) :
    |round64 q - q| ≤ 2 ^ (k - 53) := by
  rcases h0 with h0 | h0
  · rw [h0, round64_zero]
    simpa using (two_zpow_pos (k - 53)).le
  · rcases lt_trichotomy q 0 with hneg | hzero | hpos
    · have habs : |q| = -q := abs_of_neg hneg
      have h1 : round64 (-q) - -q = -(round64 q - q) := by
        rw [round64_neg]; ring
      rw [← abs_neg (round64 q - q), ← h1]
      exact round64_err_pos (by linarith) (by rwa [habs] at h0)
        (by rwa [habs] at hk)
    · rw [hzero, round64_zero]
      simpa using (two_zpow_pos (k - 53)).le
    · exact round64_err_pos hpos (by rwa [abs_of_pos hpos] at h0)
        (by rwa [abs_of_pos hpos] at hk)

theorem round64_int_pos {z : ℤ} (h0 : 0 < z) (h : z < 2 ^ 53) :
    round64 (z : ℚ) = z := by
  have hq0 : (0 : ℚ) < (z : ℚ) := by exact_mod_cast h0
  have h1q : (1 : ℚ) ≤ (z : ℚ) := by exact_mod_cast h0
  have hlow : (2 : ℚ) ^ (-1100 : ℤ) ≤ (z : ℚ) :=
    le_trans two_zpow_neg1100_le_one h1q
  obtain ⟨hs1, hs2⟩ := floorLog2_spec hlow
  have hfl : floorLog2 (z : ℚ) ≤ 52 := by
    have hzlt : (z : ℚ) < 2 ^ ((52 : ℤ) + 1) := by
      have : (z : ℚ) < ((2 ^ 53 : ℤ) : ℚ) := by exact_mod_cast h
      calc (z : ℚ) < ((2 ^ 53 : ℤ) : ℚ) := this
      _ = 2 ^ (53 : ℕ) := by push_cast; ring
      _ = 2 ^ ((52 : ℤ) + 1) := by rw [two_pow_nat_eq_zpow]; norm_num
    have hlt := lt_of_le_of_lt hs1 hzlt
    have := (zpow_lt_zpow_iff_right₀ (by norm_num : (1 : ℚ) < 2)).mp hlt
    omega
  rw [round64_of_pos hq0]
  set e := floorLog2 (z : ℚ) - 52 with he
  have hto : (((-e).toNat : ℤ)) = -e := Int.toNat_of_nonneg (by omega)
  have hx : (z : ℚ) / 2 ^ e = ((z * 2 ^ (-e).toNat : ℤ) : ℚ) := by
    calc (z : ℚ) / 2 ^ e = (z : ℚ) * 2 ^ (-e) := by
          rw [zpow_neg, div_eq_mul_inv]
    _ = (z : ℚ) * 2 ^ (((-e).toNat : ℤ)) := by rw [hto]
    _ = (z : ℚ) * 2 ^ ((-e).toNat : ℕ) := by rw [zpow_natCast]
    _ = ((z * 2 ^ (-e).toNat : ℤ) : ℚ) := by push_cast; ring
  rw [hx, rnEven_intCast, ← hx]
  exact div_mul_cancel₀ _ (two_zpow_ne_zero e)

theorem round64_int {z : ℤ} (h : |z| < 2 ^ 53) : round64 (z : ℚ) = z := by
  rcases lt_trichotomy z 0 with hneg | hzero | hpos
  · have hz : -z < 2 ^ 53 := by rwa [abs_of_neg hneg] at h
    have h1 : ((z : ℚ)) = -(((-z : ℤ)) : ℚ) := by push_cast; ring
    rw [h1, round64_neg, round64_int_pos (by omega) hz]
  · rw [hzero]; simpa using round64_zero
  · exact round64_int_pos hpos (by rwa [abs_of_pos hpos] at h)

theorem round64_natCast {n : ℕ} (h : n < 2 ^ 53) : round64 (n : ℚ) = n := by
  have h2 : |((n : ℤ))| < 2 ^ 53 := by
    rw [Int.abs_natCast]; exact_mod_cast h
  have h3 := round64_int h2
  push_cast at h3
  exact_mod_cast h3

/-- Every rounded value is an integer multiple of the ulp of its binade. -/
theorem round64_form {q : ℚ} (h : q ≠ 0) :
    ∃ m : ℤ, round64 q = (m : ℚ) * 2 ^ (floorLog2 |q| - 52) := by
  by_cases hneg : q < 0
  · refine ⟨-(rnEven (|q| / 2 ^ (floorLog2 |q| - 52))), ?_⟩
    simp only [round64, if_neg h, if_pos hneg]
    push_cast; ring
  · refine ⟨rnEven (|q| / 2 ^ (floorLog2 |q| - 52)), ?_⟩
    simp only [round64, if_neg h, if_neg hneg]

/-- Concrete evaluation principle for `round64`: exhibit the binade and a
mantissa within half a unit of the scaled value. -/
theorem round64_eq_of {q : ℚ} {e m : ℤ} (he : -1100 ≤ e)
    (h1 : (2 : ℚ) ^ e ≤ q) (h2 : q < 2 ^ (e + 1))
    (hm1 : (m : ℚ) - 1 / 2 < q / 2 ^ (e - 52))
    (hm2 : q / 2 ^ (e - 52) < (m : ℚ) + 1 / 2) :
    round64 q = (m : ℚ) * 2 ^ (e - 52) := by
  have hq0 : 0 < q := lt_of_lt_of_le (two_zpow_pos e) h1
  have hlow : (2 : ℚ) ^ (-1100 : ℤ) ≤ q :=
    le_trans ((zpow_le_zpow_iff_right₀ (by norm_num : (1 : ℚ) < 2)).mpr he) h1
  have hfl : floorLog2 q = e := floorLog2_eq_of h1 h2 hlow
  rw [round64_of_pos hq0, hfl, rnEven_eq_of hm1 hm2]

/-! ### Structural lemmas about the loaders and the iterator -/

theorem Iter.next_pos (d : NASADEM) (k : ℕ) (h : k < 3601 * 3601) :
    (Iter.mk d k).next =
      some
        ({ southwest_corner := idx_to_pont d.southwest_corner k
           elevation := d.elevation.map fun e => e.getD k 0
           is_water := d.water.map fun w => w.getD k false },
         Iter.mk d (k + 1)) := by
  unfold Iter.next
  rw [if_pos (show (Iter.mk d k).idx < 3601 * 3601 from h)]

theorem Iter.next_none (d : NASADEM) (k : ℕ) (h : ¬ k < 3601 * 3601) :
    (Iter.mk d k).next = none := by
  unfold Iter.next
  rw [if_neg (show ¬ (Iter.mk d k).idx < 3601 * 3601 from h)]

theorem Iter.advance_pos (d : NASADEM) (k : ℕ) (h : k < 3601 * 3601) :
    (Iter.mk d k).advance = Iter.mk d (k + 1) := by
  unfold Iter.advance
  rw [Iter.next_pos d k h]

theorem Iter.advance_none (d : NASADEM) (k : ℕ) (h : ¬ k < 3601 * 3601) :
    (Iter.mk d k).advance = Iter.mk d k := by
  unfold Iter.advance
  rw [Iter.next_none d k h]

theorem advance_iterate (dem : NASADEM) (i : ℕ) :
    Iter.advance^[i] dem.iter = { dem := dem, idx := min i (3601 * 3601) } := by
  induction i with
  | zero =>
    rw [Function.iterate_zero_apply, Nat.zero_min]
    rfl
  | succ n ih =>
    rw [Function.iterate_succ_apply', ih]
    by_cases h : n < 3601 * 3601
    · rw [min_eq_left h.le, min_eq_left (by omega : n + 1 ≤ 3601 * 3601)]
      exact Iter.advance_pos dem n h
    · have hge : 3601 * 3601 ≤ n := le_of_not_lt h
      rw [min_eq_right hge, min_eq_right (by omega : 3601 * 3601 ≤ n + 1)]
      exact Iter.advance_none dem (3601 * 3601) (by omega)

theorem readElevation_length_le {n : ℕ} {src vs rest : List ℕ}
    (h : readElevation n src = some (vs, rest)) : 2 * n ≤ src.length := by
  induction n generalizing src vs rest with
  | zero => simp
  | succ k ih =>
    match src with
    | [] => simp [readElevation, readU16BE] at h
    | [b1] => simp [readElevation, readU16BE] at h
    | b1 :: b2 :: tl =>
      simp only [readElevation, readU16BE] at h
      cases hrec : readElevation k tl with
      | none => rw [hrec] at h; simp at h
      | some p =>
        rcases p with ⟨vs2, rest2⟩
        have hk := ih hrec
        simp only [List.length_cons]
        omega

theorem readElevation_none_of_short {n : ℕ} {src : List ℕ}
    (h : src.length < 2 * n) : readElevation n src = none := by
  cases hres : readElevation n src with
  | none => rfl
  | some p =>
    rcases p with ⟨vs, rest⟩
    have := readElevation_length_le hres
    omega

theorem readWater_of_length {n : ℕ} {src : List ℕ} (h : n ≤ src.length) :
    readWater n src =
      some ((src.take n).map (fun b => b == 255), src.drop n) := by
  induction n generalizing src with
  | zero => simp [readWater]
  | succ k ih =>
    match src with
    | [] => simp at h
    | b :: tl =>
      simp only [List.length_cons] at h
      simp only [readWater]
      rw [ih (by omega)]
      simp

theorem getD_replicate {α : Type} (a d : α) {i n : ℕ} (h : i < n) :
    (List.replicate n a).getD i d = a := by
  induction n generalizing i with
  | zero => omega
  | succ k ih =>
    cases i with
    | zero => rw [List.replicate_succ, List.getD_cons_zero]
    | succ j =>
      rw [List.replicate_succ, List.getD_cons_succ]
      exact ih (by omega)

/-- Wrap-free evaluation of `idx_to_pont` on in-range indices: the `usize`
subtraction does not underflow and the two `as f64` casts are exact. -/
theorem idx_to_pont_eval (sw : ℤ × ℤ) (idx : ℕ) (h : idx < 3601 * 3601) :
    idx_to_pont sw idx =
      (f64add (sw.1 : ℚ) (f64div ((idx % 3601 : ℕ) : ℚ) 3601),
       f64add (sw.2 : ℚ) (f64div ((3600 - idx / 3601 : ℕ) : ℚ) 3601)) := by
  have h64 : (2 : ℕ) ^ 64 = 18446744073709551616 := by norm_num
  have h53 : (2 : ℕ) ^ 53 = 9007199254740992 := by norm_num
  have hq : idx / 3601 ≤ 3600 := by omega
  have hy : (3600 + 2 ^ 64 - idx / 3601) % 2 ^ 64 = 3600 - idx / 3601 := by
    rw [h64]; omega
  simp only [idx_to_pont, hy]
  rw [round64_natCast (by rw [h53]; omega : 3600 - idx / 3601 < 2 ^ 53),
    round64_natCast (by rw [h53]; omega : idx % 3601 < 2 ^ 53)]

/-! ### The claims -/

/-- C1: for every integer-degree southwest corner and every index with
`0 ≤ index < 3601 * 3601`, `idx_to_pont` returns the point with
latitude `= southwest_corner.lat + (3600 - (index div 3601)) / 3601.0` and
longitude `= southwest_corner.lon + (index mod 3601) / 3601.0` (the `f64`
operations being the correctly rounded ones the code performs; the integer
row and column convert to `f64` exactly). -/
theorem claim_C1_formula (sw : ℤ × ℤ) (idx : ℕ) (h : idx < 3601 * 3601) :
    idx_to_pont sw idx =
      (f64add (sw.1 : ℚ) (f64div ((idx % 3601 : ℕ) : ℚ) 3601),
       f64add (sw.2 : ℚ) (f64div ((3600 - idx / 3601 : ℕ) : ℚ) 3601)) :=
  idx_to_pont_eval sw idx h

/-- Witness for C1 at the concrete corner (-106, 38) and index 0. -/
theorem claim_C1_witness :
    0 < 3601 * 3601 ∧
    idx_to_pont (-106, 38) 0 =
      (f64add ((-106 : ℤ) : ℚ) (f64div ((0 : ℕ) : ℚ) 3601),
       f64add ((38 : ℤ) : ℚ) (f64div ((3600 : ℕ) : ℚ) 3601)) := by
  refine ⟨by norm_num, ?_⟩
  have h := claim_C1_formula (-106, 38) 0 (by norm_num)
  simpa using h

/-- C2: the iterator yields exactly 3601×3601 cell records and then is
exhausted (`next` keeps returning `none`); after `i` steps from a fresh
cursor, the `i`-th record's southwest corner is `idx_to_pont` of `i`, its
elevation is `elevation[i]` when the grid is present (else absent), and its
water flag is `water[i]` when that grid is present (else absent). -/
theorem claim_C2_iter_spec (dem : NASADEM) (i : ℕ) :
    (i < 3601 * 3601 →
      (Iter.advance^[i] dem.iter).next =
        some ({ southwest_corner := idx_to_pont dem.southwest_corner i,
                elevation := dem.elevation.map fun e => e.getD i 0,
                is_water := dem.water.map fun w => w.getD i false },
              Iter.mk dem (i + 1))) ∧
    (3601 * 3601 ≤ i → (Iter.advance^[i] dem.iter).next = none) := by
  rw [advance_iterate]
  constructor
  · intro h
    rw [min_eq_left h.le]
    exact Iter.next_pos dem i h
  · intro h
    rw [min_eq_right h]
    exact Iter.next_none dem (3601 * 3601) (by omega)

/-- Witness for C2: a fresh tile at (-106, 38); the first `next` yields the
cell for index 0 with both attributes absent, and the cursor that has taken
3601×3601 steps is exhausted. -/
theorem claim_C2_witness :
    ((NASADEM.new (-106, 38)).iter.next =
      some ({ southwest_corner := idx_to_pont (-106, 38) 0,
              elevation := none, is_water := none },
            Iter.mk (NASADEM.new (-106, 38)) 1)) ∧
    (Iter.advance^[3601 * 3601] (NASADEM.new (-106, 38)).iter).next = none := by
  constructor
  · have h := (claim_C2_iter_spec (NASADEM.new (-106, 38)) 0).1 (by norm_num)
    rw [Function.iterate_zero_apply] at h
    simpa [NASADEM.new] using h
  · exact (claim_C2_iter_spec (NASADEM.new (-106, 38)) (3601 * 3601)).2 le_rfl

/-- C10: both loaders are atomic — whenever `add_elevation` or `add_water`
reports an error, the tile is exactly the tile from before the call. -/
theorem claim_C10_loaders_atomic (dem : NASADEM) (src src2 : List ℕ) :
    ((dem.add_elevation src).2 = none → (dem.add_elevation src).1 = dem) ∧
    ((dem.add_water src2).2 = none → (dem.add_water src2).1 = dem) := by
  constructor
  · intro h
    unfold NASADEM.add_elevation at h ⊢
    cases hres : readElevation (3601 * 3601) src with
    | none => rfl
    | some p =>
      rcases p with ⟨samples, rest⟩
      rw [hres] at h
      simp at h
  · intro h
    unfold NASADEM.add_water at h ⊢
    cases hres : readWater (3601 * 3601) src2 with
    | none => rfl
    | some p =>
      rcases p with ⟨samples, rest⟩
      rw [hres] at h
      simp at h

/-- Witness for C10: loading from an empty stream fails and leaves the tile
untouched. -/
theorem claim_C10_witness :
    ((NASADEM.new (1, 2)).add_elevation []).1 = NASADEM.new (1, 2) ∧
    ((NASADEM.new (1, 2)).add_water []).1 = NASADEM.new (1, 2) := by
  have hel : readElevation (3601 * 3601) ([] : List ℕ) = none :=
    readElevation_none_of_short (by norm_num)
  have hwa : readWater (3601 * 3601) ([] : List ℕ) = none := by
    have h1 : (3601 * 3601 : ℕ) = 12967200 + 1 := by norm_num
    rw [h1]
    rfl
  have h := claim_C10_loaders_atomic (NASADEM.new (1, 2)) [] []
  constructor
  · refine h.1 ?_
    unfold NASADEM.add_elevation
    rw [hel]
  · refine h.2 ?_
    unfold NASADEM.add_water
    rw [hwa]

/-- C5: a truncated elevation source (fewer than 3601×3601×2 bytes) makes
`add_elevation` fail, the tile keeps its previous state, and if no elevation
grid had been loaded, every cell the iterator yields still has an absent
elevation. -/
theorem claim_C5_truncated (dem : NASADEM) (src : List ℕ)
    (h : src.length < 3601 * 3601 * 2) :
    (dem.add_elevation src).2 = none ∧
    (dem.add_elevation src).1 = dem ∧
    (dem.elevation = none → ∀ i, i < 3601 * 3601 →
      ((Iter.advance^[i] dem.iter).next).map (fun p => p.1.elevation) =
        some none) := by
  have hnone : readElevation (3601 * 3601) src = none :=
    readElevation_none_of_short (by omega)
  refine ⟨?_, ?_, ?_⟩
  · unfold NASADEM.add_elevation
    rw [hnone]
  · unfold NASADEM.add_elevation
    rw [hnone]
  · intro helev i hi
    rw [advance_iterate, min_eq_left hi.le, Iter.next_pos dem i hi]
    simp [helev]

/-- Witness for C5: an empty stream on a fresh tile; the load fails and the
first yielded cell has no elevation. -/
theorem claim_C5_witness :
    (([] : List ℕ).length < 3601 * 3601 * 2) ∧
    ((NASADEM.new (0, 0)).add_elevation []).2 = none ∧
    ((NASADEM.new (0, 0)).add_elevation []).1 = NASADEM.new (0, 0) ∧
    (((NASADEM.new (0, 0)).iter.next).map (fun p => p.1.elevation) =
      some none) := by
  have h := claim_C5_truncated (NASADEM.new (0, 0)) [] (by norm_num)
  refine ⟨by norm_num, h.1, h.2.1, ?_⟩
  have h3 := h.2.2 rfl 0 (by norm_num)
  rwa [Function.iterate_zero_apply] at h3

/-- Successful-read case equation of `add_water`, for a symbolic source. -/
theorem add_water_eq_some {dem : NASADEM} {src : List ℕ} {samples : List Bool}
    {rest : List ℕ}
    (h : readWater (3601 * 3601) src = some (samples, rest)) :
    dem.add_water src = ({ dem with water := some samples }, some rest) := by
  unfold NASADEM.add_water
  rw [h]

/-- Successful-read case equation of `add_elevation`, for a symbolic source. -/
theorem add_elevation_eq_some {dem : NASADEM} {src samples rest : List ℕ}
    (h : readElevation (3601 * 3601) src = some (samples, rest)) :
    dem.add_elevation src =
      ({ dem with elevation := some samples }, some rest) := by
  unfold NASADEM.add_elevation
  rw [h]

/-- Loading a constant water stream: the loader succeeds and stores the
3601×3601-fold coercion `byte == 255`. -/
theorem add_water_replicate (dem : NASADEM) (b : ℕ) :
    dem.add_water (List.replicate (3601 * 3601) b) =
      ({ dem with water := some (List.replicate (3601 * 3601) (b == 255)) },
       some []) := by
  have hr := readWater_of_length
    (show 3601 * 3601 ≤ (List.replicate (3601 * 3601) b).length by
      rw [List.length_replicate])
  rw [List.take_replicate, List.drop_replicate, min_self, Nat.sub_self,
    List.replicate_zero, List.map_replicate] at hr
  exact add_water_eq_some hr

/-- The water flag of the `i`-th cell of a tile whose water grid is `w`. -/
theorem iter_is_water_of_water (dem : NASADEM) (w : List Bool) (i : ℕ)
    (hi : i < 3601 * 3601) :
    ((Iter.advance^[i] ({ dem with water := some w }).iter).next).map
      (fun p => p.1.is_water) = some (some (w.getD i false)) := by
  rw [advance_iterate, min_eq_left hi.le,
    Iter.next_pos { dem with water := some w } i hi]
  simp

/-- C6 counterexample: the claim says a water byte outside {0, 255} makes
`add_water` fail with a typed format error in normal (non-debug) operation;
in fact the release code has no such check — a stream of 3601×3601 bytes
equal to 7 loads successfully, every byte silently coerced to "land". -/
theorem claim_C6_counterexample :
    ((NASADEM.new (0, 0)).add_water (List.replicate (3601 * 3601) 7)).2 =
      some [] ∧
    ((NASADEM.new (0, 0)).add_water (List.replicate (3601 * 3601) 7)).1.water =
      some (List.replicate (3601 * 3601) false) := by
  rw [add_water_replicate]
  exact ⟨rfl, rfl⟩

/-- C6 amended: in normal (non-debug) operation `add_water` performs no
sentinel validation at all — on any stream holding at least 3601×3601 bytes
it succeeds, storing `byte == 255` for every byte (so any byte other than
255, valid or not, is silently coerced to land); the sentinel check exists
only as a debug assertion. -/
theorem claim_C6_water_coerces (dem : NASADEM) (src : List ℕ)
    (h : 3601 * 3601 ≤ src.length) :
    (dem.add_water src).2 = some (src.drop (3601 * 3601)) ∧
    (dem.add_water src).1 =
      { dem with
        water := some ((src.take (3601 * 3601)).map fun b => b == 255) } := by
  have hr := readWater_of_length h
  rw [add_water_eq_some hr]
  exact ⟨rfl, rfl⟩

/-- Witness for the amended C6 on an all-zero stream. -/
theorem claim_C6_witness :
    3601 * 3601 ≤ (List.replicate (3601 * 3601) (0 : ℕ)).length ∧
    ((NASADEM.new (5, 6)).add_water (List.replicate (3601 * 3601) (0 : ℕ))).2 =
      some ((List.replicate (3601 * 3601) (0 : ℕ)).drop (3601 * 3601)) := by
  have hlen : 3601 * 3601 ≤ (List.replicate (3601 * 3601) (0 : ℕ)).length := by
    rw [List.length_replicate]
  exact ⟨hlen, (claim_C6_water_coerces (NASADEM.new (5, 6)) _ hlen).1⟩

/-- C7: after loading an all-255 water stream every yielded cell has
`is_water = some true`; after loading an all-zero stream every yielded cell
has `is_water = some false`. -/
theorem claim_C7_uniform_water (dem : NASADEM) (i : ℕ) (hi : i < 3601 * 3601) :
    ((Iter.advance^[i]
        ((dem.add_water (List.replicate (3601 * 3601) 255)).1).iter).next).map
      (fun p => p.1.is_water) = some (some true) ∧
    ((Iter.advance^[i]
        ((dem.add_water (List.replicate (3601 * 3601) 0)).1).iter).next).map
      (fun p => p.1.is_water) = some (some false) := by
  constructor
  · have h := iter_is_water_of_water dem (List.replicate (3601 * 3601) true) i hi
    rw [getD_replicate true false hi] at h
    have ht := add_water_replicate dem 255
    rw [show ((255 : ℕ) == 255) = true from rfl] at ht
    rw [ht]
    exact h
  · have h := iter_is_water_of_water dem (List.replicate (3601 * 3601) false) i hi
    rw [getD_replicate false false hi] at h
    have ht := add_water_replicate dem 0
    rw [show ((0 : ℕ) == 255) = false from rfl] at ht
    rw [ht]
    exact h

/-- Witness for C7 at index 0 on a fresh tile. -/
theorem claim_C7_witness :
    0 < 3601 * 3601 ∧
    ((((NASADEM.new (0, 0)).add_water
        (List.replicate (3601 * 3601) 255)).1.iter.next).map
      (fun p => p.1.is_water) = some (some true)) := by
  refine ⟨by norm_num, ?_⟩
  have h := (claim_C7_uniform_water (NASADEM.new (0, 0)) 0 (by norm_num)).1
  rwa [Function.iterate_zero_apply] at h

/-- Definitional unfolding of `idx_to_pont` for any index, with the wrapping
`usize` subtraction left explicit. -/
theorem idx_to_pont_eval_oob (sw : ℤ × ℤ) (idx : ℕ) :
    idx_to_pont sw idx =
      (f64add (sw.1 : ℚ) (f64div (round64 ((idx % 3601 : ℕ) : ℚ)) 3601),
       f64add (sw.2 : ℚ)
         (f64div (round64 ((((3600 + 2 ^ 64 - idx / 3601) % 2 ^ 64 : ℕ)) : ℚ))
           3601)) := rfl

/-- C8 counterexample: at the out-of-range index 3601·3601 the release code
does not trap — it returns a coordinate point, and a nonsense one: for a tile
anchored at (0, 0) the returned "latitude" exceeds 10^15 degrees (the wrapped
row is 2^64 − 1). -/
theorem claim_C8_counterexample :
    (10 ^ 15 : ℚ) < (idx_to_pont (0, 0) (3601 * 3601)).2 := by
  have hy : (3600 + 2 ^ 64 - 3601 * 3601 / 3601) % 2 ^ 64 =
      18446744073709551615 := by norm_num
  have hpt := idx_to_pont_eval_oob (0, 0) (3601 * 3601)
  rw [hy] at hpt
  rw [hpt]
  show (10 ^ 15 : ℚ) <
    f64add ((0 : ℤ) : ℚ)
      (f64div (round64 ((18446744073709551615 : ℕ) : ℚ)) 3601)
  have hA : round64 ((18446744073709551615 : ℕ) : ℚ) =
      18446744073709551616 := by
    have h : round64 ((18446744073709551615 : ℕ) : ℚ) =
        ((9007199254740992 : ℤ) : ℚ) * 2 ^ ((63 : ℤ) - 52) :=
      round64_eq_of (by norm_num) (by push_cast; norm_num)
        (by push_cast; norm_num) (by push_cast; norm_num)
        (by push_cast; norm_num)
    rw [h]
    push_cast
    norm_num
  rw [hA]
  have hB : f64div (18446744073709551616 : ℚ) 3601 = 5122672611416149 := by
    have h : round64 ((18446744073709551616 : ℚ) / 3601) =
        ((5122672611416149 : ℤ) : ℚ) * 2 ^ ((52 : ℤ) - 52) :=
      round64_eq_of (by norm_num) (by norm_num) (by norm_num) (by norm_num)
        (by norm_num)
    unfold f64div
    rw [h]
    push_cast
    norm_num
  rw [hB]
  have hC : f64add ((0 : ℤ) : ℚ) (5122672611416149 : ℚ) =
      5122672611416149 := by
    unfold f64add
    rw [show ((0 : ℤ) : ℚ) + (5122672611416149 : ℚ) =
        ((5122672611416149 : ℤ) : ℚ) by push_cast; norm_num]
    have habs : |(5122672611416149 : ℤ)| < 2 ^ 53 := by
      rw [abs_of_pos (by norm_num : (0 : ℤ) < 5122672611416149)]
      norm_num
    rw [round64_int habs]
    push_cast
    norm_num
  rw [hC]
  norm_num

/-- C8 amended: in normal (non-debug) operation an out-of-range index does
not trap.  For every `idx` with `3601·3601 ≤ idx < 2^64` the `usize`
subtraction wraps (the row value exceeds 2^63) and `idx_to_pont` returns a
(nonsense) coordinate point built from that wrapped row; the loud failure
(the `debug_assert!` and the checked subtraction) exists only in debug
builds. -/
theorem claim_C8_no_trap (sw : ℤ × ℤ) (idx : ℕ)
    (h1 : 3601 * 3601 ≤ idx) (h2 : idx < 2 ^ 64) :
    2 ^ 63 < (3600 + 2 ^ 64 - idx / 3601) % 2 ^ 64 ∧
    idx_to_pont sw idx =
      (f64add (sw.1 : ℚ) (f64div (round64 ((idx % 3601 : ℕ) : ℚ)) 3601),
       f64add (sw.2 : ℚ)
         (f64div (round64 ((((3600 + 2 ^ 64 - idx / 3601) % 2 ^ 64 : ℕ)) : ℚ))
           3601)) := by
  constructor
  · have h64 : (2 : ℕ) ^ 64 = 18446744073709551616 := by norm_num
    have h63 : (2 : ℕ) ^ 63 = 9223372036854775808 := by norm_num
    rw [h64] at h2 ⊢
    rw [h63]
    omega
  · exact idx_to_pont_eval_oob sw idx

/-- Witness for the amended C8 at index 3601·3601. -/
theorem claim_C8_witness :
    3601 * 3601 ≤ 3601 * 3601 ∧ (3601 * 3601 : ℕ) < 2 ^ 64 ∧
    2 ^ 63 < (3600 + 2 ^ 64 - 3601 * 3601 / 3601) % 2 ^ 64 := by
  refine ⟨le_rfl, by norm_num, ?_⟩
  exact (claim_C8_no_trap (0, 0) (3601 * 3601) le_rfl (by norm_num)).1

/-! ### Error analysis of the computed cell coordinates -/

theorem two_pow_64 : (2 : ℚ) ^ (64 : ℕ) = 2 ^ (64 : ℤ) := by
  rw [two_pow_nat_eq_zpow]; norm_num

theorem intCast_dyadic (z : ℤ) :
    (z : ℚ) = ((z * 2 ^ 64 : ℤ) : ℚ) / 2 ^ (64 : ℕ) := by
  have h2 : ((2 : ℤ) : ℚ) = 2 := by norm_num
  rw [Int.cast_mul, Int.cast_pow, h2, mul_div_assoc,
    div_self (by positivity : ((2 : ℚ) ^ (64 : ℕ)) ≠ 0), mul_one]

/-- A nonzero sum of two multiples of `2 ^ (-64)` has magnitude at least
`2 ^ (-64)`, hence far above `2 ^ (-1100)`. -/
theorem dyadic_sum_lower {s d : ℚ} {zs zd : ℤ}
    (hs : s = (zs : ℚ) / 2 ^ (64 : ℕ)) (hd : d = (zd : ℚ) / 2 ^ (64 : ℕ))
    (hz : s + d ≠ 0) : (2 : ℚ) ^ (-1100 : ℤ) ≤ |s + d| := by
  have hsum : s + d = ((zs + zd : ℤ) : ℚ) / 2 ^ (64 : ℕ) := by
    rw [hs, hd]; push_cast; ring
  have hZ : zs + zd ≠ 0 := by
    intro h0
    apply hz
    rw [hsum, h0]
    norm_num
  have h1 : (1 : ℚ) ≤ |((zs + zd : ℤ) : ℚ)| := by
    have habs : (0 : ℤ) < |zs + zd| := abs_pos.mpr hZ
    have h2 : (1 : ℤ) ≤ |zs + zd| := by omega
    calc (1 : ℚ) = ((1 : ℤ) : ℚ) := by norm_num
    _ ≤ ((|zs + zd| : ℤ) : ℚ) := by exact_mod_cast h2
    _ = |((zs + zd : ℤ) : ℚ)| := by push_cast; ring
  have hpos : (0 : ℚ) < 2 ^ (64 : ℕ) := by positivity
  calc (2 : ℚ) ^ (-1100 : ℤ) ≤ 2 ^ (-64 : ℤ) :=
        (zpow_le_zpow_iff_right₀ (by norm_num)).mpr (by norm_num)
  _ = 1 / 2 ^ (64 : ℕ) := by
        rw [zpow_neg, one_div, two_pow_64]
  _ ≤ |((zs + zd : ℤ) : ℚ)| / 2 ^ (64 : ℕ) := by
        gcongr
  _ = |s + d| := by
        rw [hsum, abs_div, abs_of_pos hpos]

/-- Correctly rounded `f64` addition of two `2 ^ (-64)`-dyadic values: the
usual half-ulp error bound at any binade bound `2 ^ (k + 1)` on the sum. -/
theorem f64add_dyadic {a d : ℚ} {za zd : ℤ} {k : ℤ}
    (ha : a = (za : ℚ) / 2 ^ (64 : ℕ)) (hd : d = (zd : ℚ) / 2 ^ (64 : ℕ))
    (hb : |a + d| < 2 ^ (k + 1)) :
    |f64add a d - (a + d)| ≤ 2 ^ (k - 53) := by
  apply round64_err ?_ hb
  by_cases hz : a + d = 0
  · exact Or.inl hz
  · exact Or.inr (dyadic_sum_lower ha hd hz)

/-- The computed per-cell offset `x as f64 / 3601.0` (for a row or column
`x ≤ 3600`): it is within `2 ^ (-54)` of the exact offset and is a multiple
of `2 ^ (-64)`. -/
theorem f64div_nat_err {x : ℕ} (hx : x ≤ 3600) :
    |f64div (x : ℚ) 3601 - (x : ℚ) / 3601| ≤ 2 ^ (-54 : ℤ) ∧
    ∃ m : ℤ, f64div (x : ℚ) 3601 = (m : ℚ) / 2 ^ (64 : ℕ) := by
  have hD : f64div (x : ℚ) 3601 = round64 ((x : ℚ) / 3601) := rfl
  rcases Nat.eq_zero_or_pos x with h0 | h1
  · subst h0
    rw [hD]
    have hq0 : ((0 : ℕ) : ℚ) / 3601 = 0 := by norm_num
    rw [hq0, round64_zero]
    refine ⟨by simpa using (two_zpow_pos (-54)).le, 0, by norm_num⟩
  · have hxq_pos : (0 : ℚ) < (x : ℚ) / 3601 := by
      have hx0 : (0 : ℚ) < (x : ℚ) := by exact_mod_cast h1
      positivity
    have hq1 : 1 / 3601 ≤ (x : ℚ) / 3601 := by
      gcongr
      exact_mod_cast h1
    have hq2 : (x : ℚ) / 3601 ≤ 3600 / 3601 := by
      gcongr
      exact_mod_cast hx
    have hlow : (2 : ℚ) ^ (-1100 : ℤ) ≤ (x : ℚ) / 3601 := by
      have h2 : (2 : ℚ) ^ (-1100 : ℤ) ≤ 2 ^ (-12 : ℤ) :=
        (zpow_le_zpow_iff_right₀ (by norm_num)).mpr (by norm_num)
      have e12 : (2 : ℚ) ^ (-12 : ℤ) = 1 / 4096 := by norm_num
      rw [e12] at h2
      have h3 : (1 : ℚ) / 4096 ≤ 1 / 3601 := by norm_num
      linarith
    have hk' : (x : ℚ) / 3601 < 2 ^ ((-1 : ℤ) + 1) := by
      have e0 : (2 : ℚ) ^ ((-1 : ℤ) + 1) = 1 := by norm_num
      have h4 : (3600 : ℚ) / 3601 < 1 := by norm_num
      rw [e0]
      linarith
    have hk : |(x : ℚ) / 3601| < 2 ^ ((-1 : ℤ) + 1) := by
      rwa [abs_of_pos hxq_pos]
    constructor
    · rw [hD]
      have herr := round64_err (Or.inr (by rwa [abs_of_pos hxq_pos])) hk
      have e : (-1 : ℤ) - 53 = -54 := by norm_num
      rwa [e] at herr
    · rw [hD]
      obtain ⟨m, hm⟩ := round64_form hxq_pos.ne'
      obtain ⟨hs1, hs2⟩ := floorLog2_spec hlow
      have habs : |(x : ℚ) / 3601| = (x : ℚ) / 3601 := abs_of_pos hxq_pos
      rw [habs] at hm
      have hfl_hi : floorLog2 ((x : ℚ) / 3601) ≤ -1 := by
        have h4 := lt_of_le_of_lt hs1 hk'
        have h5 := (zpow_lt_zpow_iff_right₀ (by norm_num : (1 : ℚ) < 2)).mp h4
        omega
      have hfl_lo : (-12 : ℤ) ≤ floorLog2 ((x : ℚ) / 3601) := by
        have hge : (2 : ℚ) ^ (-12 : ℤ) ≤ (x : ℚ) / 3601 := by
          have e12 : (2 : ℚ) ^ (-12 : ℤ) = 1 / 4096 := by norm_num
          rw [e12]
          have h3 : (1 : ℚ) / 4096 ≤ 1 / 3601 := by norm_num
          linarith
        have h4 := lt_of_le_of_lt hge hs2
        have h5 := (zpow_lt_zpow_iff_right₀ (by norm_num : (1 : ℚ) < 2)).mp h4
        omega
      refine ⟨m * 2 ^ (floorLog2 ((x : ℚ) / 3601) - 52 + 64).toNat, ?_⟩
      rw [hm]
      have htn : (((floorLog2 ((x : ℚ) / 3601) - 52 + 64).toNat : ℕ) : ℤ) =
          floorLog2 ((x : ℚ) / 3601) - 52 + 64 :=
        Int.toNat_of_nonneg (by omega)
      push_cast
      rw [← zpow_natCast (2 : ℚ)
          ((floorLog2 ((x : ℚ) / 3601) - 52 + 64).toNat), htn, two_pow_64,
        mul_div_assoc, ← zpow_sub₀ (by norm_num : (2 : ℚ) ≠ 0)]
      have e : floorLog2 ((x : ℚ) / 3601) - 52 + 64 - 64 =
          floorLog2 ((x : ℚ) / 3601) - 52 := by ring
      rw [e]

/-- The computed coordinate `a as f64 + x as f64 / 3601.0` is within
`2 ^ (-21)` of the exact coordinate `a + x / 3601`, for any `i32` anchor
component and any row or column `x ≤ 3600`. -/
theorem coord_err {a : ℤ} {x : ℕ} (ha : |a| ≤ 2 ^ 31) (hx : x ≤ 3600) :
    |f64add (a : ℚ) (f64div (x : ℚ) 3601) - ((a : ℚ) + (x : ℚ) / 3601)|
      ≤ 2 ^ (-21 : ℤ) := by
  obtain ⟨herr, zd, hd⟩ := f64div_nat_err hx
  have e54 : (2 : ℚ) ^ (-54 : ℤ) = 1 / 18014398509481984 := by norm_num
  rw [e54] at herr
  have herr' := abs_le.mp herr
  have hxq_lb : (0 : ℚ) ≤ (x : ℚ) / 3601 := by positivity
  have hxq_ub : (x : ℚ) / 3601 ≤ 3600 / 3601 := by
    gcongr
    exact_mod_cast hx
  have ha' : |(a : ℚ)| ≤ 2147483648 := by
    calc |(a : ℚ)| = ((|a| : ℤ) : ℚ) := by push_cast; ring
    _ ≤ ((2 ^ 31 : ℤ) : ℚ) := by exact_mod_cast ha
    _ = 2147483648 := by norm_num
  have ha'' := abs_le.mp ha'
  have hsumb : |(a : ℚ) + f64div (x : ℚ) 3601| < 2 ^ ((31 : ℤ) + 1) := by
    have e32 : (2 : ℚ) ^ ((31 : ℤ) + 1) = 4294967296 := by norm_num
    rw [e32, abs_lt]
    constructor <;> linarith [herr'.1, herr'.2, ha''.1, ha''.2]
  have herr2 := f64add_dyadic (intCast_dyadic a) hd hsumb
  have e22 : (2 : ℚ) ^ ((31 : ℤ) - 53) = 1 / 4194304 := by norm_num
  rw [e22] at herr2
  have herr2' := abs_le.mp herr2
  have e21 : (2 : ℚ) ^ (-21 : ℤ) = 1 / 2097152 := by norm_num
  rw [e21, abs_le]
  constructor <;> linarith [herr2'.1, herr2'.2, herr'.1, herr'.2]

/-- Each computed coordinate stays inside the tile's 1-degree span. -/
theorem coord_bounds {a : ℤ} {x : ℕ} (ha : |a| ≤ 2 ^ 31) (hx : x ≤ 3600) :
    (a : ℚ) ≤ f64add (a : ℚ) (f64div (x : ℚ) 3601) ∧
    f64add (a : ℚ) (f64div (x : ℚ) 3601) < (a : ℚ) + 1 := by
  rcases Nat.eq_zero_or_pos x with h0 | h1
  · subst h0
    have hd0 : f64div ((0 : ℕ) : ℚ) 3601 = 0 := by
      have hq0 : ((0 : ℕ) : ℚ) / 3601 = 0 := by norm_num
      show round64 (((0 : ℕ) : ℚ) / 3601) = 0
      rw [hq0, round64_zero]
    rw [hd0]
    have hadd : f64add (a : ℚ) 0 = (a : ℚ) := by
      show round64 ((a : ℚ) + 0) = (a : ℚ)
      rw [add_zero]
      exact round64_int (lt_of_le_of_lt ha (by norm_num))
    rw [hadd]
    exact ⟨le_rfl, by linarith⟩
  · have herr := coord_err ha hx
    have e21 : (2 : ℚ) ^ (-21 : ℤ) = 1 / 2097152 := by norm_num
    rw [e21] at herr
    have herr' := abs_le.mp herr
    have hq_lb : 1 / 3601 ≤ (x : ℚ) / 3601 := by
      gcongr
      exact_mod_cast h1
    have hq_ub : (x : ℚ) / 3601 ≤ 3600 / 3601 := by
      gcongr
      exact_mod_cast hx
    constructor
    · linarith [herr'.1]
    · linarith [herr'.2]

/-- Scaling the computed offset back by 3601 and rounding to the nearest
integer recovers the exact row or column. -/
theorem coord_roundtrip {a : ℤ} {x : ℕ} (ha : |a| ≤ 2 ^ 31) (hx : x ≤ 3600) :
    round ((f64add (a : ℚ) (f64div (x : ℚ) 3601) - (a : ℚ)) * 3601) =
      ((x : ℕ) : ℤ) := by
  have herr := coord_err ha hx
  have e21 : (2 : ℚ) ^ (-21 : ℤ) = 1 / 2097152 := by norm_num
  rw [e21] at herr
  have hkey : (f64add (a : ℚ) (f64div (x : ℚ) 3601) - (a : ℚ)) * 3601 =
      (f64add (a : ℚ) (f64div (x : ℚ) 3601) - ((a : ℚ) + (x : ℚ) / 3601)) *
          3601 + ((x : ℕ) : ℤ) := by
    push_cast
    field_simp
    ring
  rw [hkey, round_add_int]
  have hδ : |(f64add (a : ℚ) (f64div (x : ℚ) 3601) -
      ((a : ℚ) + (x : ℚ) / 3601)) * 3601| < 1 / 2 := by
    rw [abs_mul, show |(3601 : ℚ)| = 3601 by norm_num]
    calc |f64add (a : ℚ) (f64div (x : ℚ) 3601) -
        ((a : ℚ) + (x : ℚ) / 3601)| * 3601 ≤ 1 / 2097152 * 3601 :=
          mul_le_mul_of_nonneg_right herr (by norm_num)
    _ < 1 / 2 := by norm_num
  have habs := abs_lt.mp hδ
  have h0 : round ((f64add (a : ℚ) (f64div (x : ℚ) 3601) -
      ((a : ℚ) + (x : ℚ) / 3601)) * 3601) = 0 := by
    rw [round_eq]
    apply Int.floor_eq_zero_iff.mpr
    constructor
    · linarith [habs.1]
    · linarith [habs.2]
  rw [h0, zero_add]

/-- Unfolding of `nearestIdx` on a literal pair. -/
theorem nearestIdx_mk (sw : ℤ × ℤ) (u v : ℚ) :
    nearestIdx sw (u, v) =
      (3600 - (round ((v - (sw.2 : ℚ)) * 3601)).toNat) * 3601 +
        (round ((u - (sw.1 : ℚ)) * 3601)).toNat := rfl

/-- The full round trip: mapping an in-range index to its computed point and
back to the nearest lattice index recovers the index. -/
theorem idx_roundtrip (sw : ℤ × ℤ) (hx : |sw.1| ≤ 2 ^ 31)
    (hy : |sw.2| ≤ 2 ^ 31) (i : ℕ) (hi : i < 3601 * 3601) :
    nearestIdx sw (idx_to_pont sw i) = i := by
  have hxb : i % 3601 ≤ 3600 := by omega
  have hyb : 3600 - i / 3601 ≤ 3600 := by omega
  rw [idx_to_pont_eval sw i hi, nearestIdx_mk, coord_roundtrip hy hyb,
    coord_roundtrip hx hxb, Int.toNat_natCast, Int.toNat_natCast]
  omega

/-- C3: on the index range `[0, 3601·3601)` the computed cell corners form a
bijection with the 3601×3601 lattice of per-cell southwest corners inside the
tile's 1×1-degree span, and index → point → nearest lattice index is the
identity.  The anchor is any `i32` point (`|coordinate| ≤ 2^31`). -/
theorem claim_C3_lattice_bijection (sw : ℤ × ℤ)
    (hx : |sw.1| ≤ 2 ^ 31) (hy : |sw.2| ≤ 2 ^ 31) :
    (∀ i, i < 3601 * 3601 → nearestIdx sw (idx_to_pont sw i) = i) ∧
    (∀ i j, i < 3601 * 3601 → j < 3601 * 3601 →
      idx_to_pont sw i = idx_to_pont sw j → i = j) ∧
    (∀ i, i < 3601 * 3601 → idx_to_pont sw i ∈ latticeF sw) ∧
    (∀ p, p ∈ latticeF sw → ∃ i, i < 3601 * 3601 ∧ idx_to_pont sw i = p) ∧
    (∀ i, i < 3601 * 3601 →
      (sw.1 : ℚ) ≤ (idx_to_pont sw i).1 ∧
      (idx_to_pont sw i).1 < (sw.1 : ℚ) + 1 ∧
      (sw.2 : ℚ) ≤ (idx_to_pont sw i).2 ∧
      (idx_to_pont sw i).2 < (sw.2 : ℚ) + 1) := by
  refine ⟨fun i hi => idx_roundtrip sw hx hy i hi, ?_, ?_, ?_, ?_⟩
  · intro i j hi hj heq
    have h1 := idx_roundtrip sw hx hy i hi
    have h2 := idx_roundtrip sw hx hy j hj
    rw [heq] at h1
    omega
  · intro i hi
    rw [idx_to_pont_eval sw i hi]
    exact ⟨3600 - i / 3601, i % 3601, by omega, by omega, rfl⟩
  · rintro p ⟨r, c, hr, hc, rfl⟩
    refine ⟨(3600 - r) * 3601 + c, by omega, ?_⟩
    rw [idx_to_pont_eval sw _ (by omega)]
    have h1 : ((3600 - r) * 3601 + c) % 3601 = c := by omega
    have h2 : 3600 - ((3600 - r) * 3601 + c) / 3601 = r := by omega
    rw [h1, h2]
  · intro i hi
    rw [idx_to_pont_eval sw i hi]
    have hb1 := coord_bounds hx (show i % 3601 ≤ 3600 by omega)
    have hb2 := coord_bounds hy (show 3600 - i / 3601 ≤ 3600 by omega)
    exact ⟨hb1.1, hb1.2, hb2.1, hb2.2⟩

/-- Witness for C3 at the concrete anchor (-106, 38) and index 0. -/
theorem claim_C3_witness :
    |(-106 : ℤ)| ≤ 2 ^ 31 ∧ |(38 : ℤ)| ≤ 2 ^ 31 ∧
    nearestIdx (-106, 38) (idx_to_pont (-106, 38) 0) = 0 := by
  have h1 : |(-106 : ℤ)| ≤ 2 ^ 31 := by
    rw [abs_of_neg (by norm_num : (-106 : ℤ) < 0)]
    norm_num
  have h2 : |(38 : ℤ)| ≤ 2 ^ 31 := by
    rw [abs_of_pos (by norm_num : (0 : ℤ) < 38)]
    norm_num
  exact ⟨h1, h2,
    (claim_C3_lattice_bijection (-106, 38) h1 h2).1 0 (by norm_num)⟩

/-- Adding the computed `1.0 / 3601.0` offset to a cell corner strictly
increases it (the offset survives the rounding of the sum), for corners as
they actually occur: `2 ^ (-64)`-dyadic and at most `2 ^ 32` in magnitude. -/
theorem f64add_increment {s : ℚ} {zs : ℤ}
    (hs : s = (zs : ℚ) / 2 ^ (64 : ℕ)) (hb : |s| ≤ 2 ^ (32 : ℕ)) :
    s < f64add s (f64div 1 3601) := by
  have h1 := f64div_nat_err (show (1 : ℕ) ≤ 3600 by norm_num)
  rw [Nat.cast_one] at h1
  obtain ⟨herr, zd, hd⟩ := h1
  have e54 : (2 : ℚ) ^ (-54 : ℤ) = 1 / 18014398509481984 := by norm_num
  rw [e54] at herr
  have herr' := abs_le.mp herr
  have hb' : |s| ≤ 4294967296 := by
    have e32 : (2 : ℚ) ^ (32 : ℕ) = 4294967296 := by norm_num
    rwa [e32] at hb
  have hb'' := abs_le.mp hb'
  have hsumb : |s + f64div 1 3601| < 2 ^ ((32 : ℤ) + 1) := by
    have e33 : (2 : ℚ) ^ ((32 : ℤ) + 1) = 8589934592 := by norm_num
    rw [e33, abs_lt]
    constructor <;> linarith [herr'.1, herr'.2, hb''.1, hb''.2]
  have herr2 := f64add_dyadic hs hd hsumb
  have e221 : (2 : ℚ) ^ ((32 : ℤ) - 53) = 1 / 2097152 := by norm_num
  rw [e221] at herr2
  have herr2' := abs_le.mp herr2
  linarith [herr2'.1, herr'.1]

/-- C9: `polygon()` returns the closed 5-point ring SW, SE, NE, NW, SW with
no interior rings; the first and last points coincide; the corners lie on the
axis-aligned product of the two west/east and south/north values, where both
the east and the north offset are the same computed `1.0 / 3601.0` degree
constant; and (for corners as the iterator produces them: dyadic, within
`2 ^ 32`) the east and north neighbours are strictly larger, so the four
corners are distinct.  The function is a total pure function. -/
theorem claim_C9_polygon (b : DEMBox)
    (hdx : ∃ z : ℤ, b.southwest_corner.1 = (z : ℚ) / 2 ^ (64 : ℕ))
    (hdy : ∃ z : ℤ, b.southwest_corner.2 = (z : ℚ) / 2 ^ (64 : ℕ))
    (hbx : |b.southwest_corner.1| ≤ 2 ^ (32 : ℕ))
    (hby : |b.southwest_corner.2| ≤ 2 ^ (32 : ℕ)) :
    b.polygon.exterior =
      [(b.southwest_corner.1, b.southwest_corner.2),
       (f64add b.southwest_corner.1 (f64div 1 3601), b.southwest_corner.2),
       (f64add b.southwest_corner.1 (f64div 1 3601),
        f64add b.southwest_corner.2 (f64div 1 3601)),
       (b.southwest_corner.1, f64add b.southwest_corner.2 (f64div 1 3601)),
       (b.southwest_corner.1, b.southwest_corner.2)] ∧
    b.polygon.exterior.length = 5 ∧
    b.polygon.interiors = [] ∧
    b.polygon.exterior.getD 0 (0, 0) = b.polygon.exterior.getD 4 (0, 0) ∧
    b.southwest_corner.1 < f64add b.southwest_corner.1 (f64div 1 3601) ∧
    b.southwest_corner.2 < f64add b.southwest_corner.2 (f64div 1 3601) := by
  obtain ⟨zx, hzx⟩ := hdx
  obtain ⟨zy, hzy⟩ := hdy
  exact ⟨rfl, rfl, rfl, rfl, f64add_increment hzx hbx,
    f64add_increment hzy hby⟩

/-- Witness for C9 on the cell record anchored at (-106, 38). -/
theorem claim_C9_witness :
    (∃ z : ℤ, (-106 : ℚ) = (z : ℚ) / 2 ^ (64 : ℕ)) ∧
    (∃ z : ℤ, (38 : ℚ) = (z : ℚ) / 2 ^ (64 : ℕ)) ∧
    |(-106 : ℚ)| ≤ 2 ^ (32 : ℕ) ∧ |(38 : ℚ)| ≤ 2 ^ (32 : ℕ) ∧
    (DEMBox.mk (-106, 38) none none).polygon.interiors = [] ∧
    (-106 : ℚ) < f64add (-106) (f64div 1 3601) := by
  have hdx : ∃ z : ℤ, (-106 : ℚ) = (z : ℚ) / 2 ^ (64 : ℕ) :=
    ⟨-106 * 2 ^ 64, by exact_mod_cast intCast_dyadic (-106)⟩
  have hdy : ∃ z : ℤ, (38 : ℚ) = (z : ℚ) / 2 ^ (64 : ℕ) :=
    ⟨38 * 2 ^ 64, by exact_mod_cast intCast_dyadic 38⟩
  have hbx : |(-106 : ℚ)| ≤ 2 ^ (32 : ℕ) := by
    rw [abs_of_neg (by norm_num : (-106 : ℚ) < 0)]
    norm_num
  have hby : |(38 : ℚ)| ≤ 2 ^ (32 : ℕ) := by
    rw [abs_of_pos (by norm_num : (0 : ℚ) < 38)]
    norm_num
  have h := claim_C9_polygon (DEMBox.mk (-106, 38) none none) hdx hdy hbx hby
  exact ⟨hdx, hdy, hbx, hby, h.2.2.1, h.2.2.2.2.1⟩

/-- C4: the first cell yielded by the iterator of a tile anchored at
(lon, lat) = (-106, 38) has southwest corner exactly
`(-106.0, 38.99972229936129)`: the second coordinate is the IEEE-754 binary64
value both of `38.0 + 3600.0 / 3601.0` as the code computes it and of the
decimal literal `38.99972229936129`. -/
theorem claim_C4_first_cell :
    ((NASADEM.new (-106, 38)).iter.next).map (fun p => p.1.southwest_corner) =
      some ((-106 : ℚ),
        round64 ((3899972229936129 : ℚ) / 100000000000000)) := by
  rw [show (NASADEM.new (-106, 38)).iter = Iter.mk (NASADEM.new (-106, 38)) 0
      from rfl,
    Iter.next_pos (NASADEM.new (-106, 38)) 0 (by norm_num)]
  show some (idx_to_pont (-106, 38) 0) =
    some ((-106 : ℚ), round64 ((3899972229936129 : ℚ) / 100000000000000))
  have heval := idx_to_pont_eval (-106, 38) 0 (by norm_num)
  have e1 : (0 % 3601 : ℕ) = 0 := by norm_num
  have e2 : (3600 - 0 / 3601 : ℕ) = 3600 := by norm_num
  rw [e1, e2] at heval
  have hlon : f64add ((((-106, 38) : ℤ × ℤ).1 : ℤ) : ℚ)
      (f64div ((0 : ℕ) : ℚ) 3601) = (-106 : ℚ) := by
    show f64add ((-106 : ℤ) : ℚ) (f64div ((0 : ℕ) : ℚ) 3601) = (-106 : ℚ)
    have hd0 : f64div ((0 : ℕ) : ℚ) 3601 = 0 := by
      have hq0 : ((0 : ℕ) : ℚ) / 3601 = 0 := by norm_num
      show round64 (((0 : ℕ) : ℚ) / 3601) = 0
      rw [hq0, round64_zero]
    rw [hd0]
    show round64 (((-106 : ℤ) : ℚ) + 0) = (-106 : ℚ)
    rw [add_zero]
    have habs : |(-106 : ℤ)| < 2 ^ 53 := by
      rw [abs_of_neg (by norm_num : (-106 : ℤ) < 0)]
      norm_num
    rw [round64_int habs]
    norm_num
  have hdiv : f64div ((3600 : ℕ) : ℚ) 3601 =
      (9004697949754949 : ℚ) / 9007199254740992 := by
    show round64 (((3600 : ℕ) : ℚ) / 3601) = _
    have h : round64 (((3600 : ℕ) : ℚ) / 3601) =
        ((9004697949754949 : ℤ) : ℚ) * 2 ^ ((-1 : ℤ) - 52) :=
      round64_eq_of (by norm_num) (by push_cast; norm_num)
        (by push_cast; norm_num) (by push_cast; norm_num)
        (by push_cast; norm_num)
    rw [h]
    push_cast
    norm_num
  have hlat : f64add ((((-106, 38) : ℤ × ℤ).2 : ℤ) : ℚ)
      (f64div ((3600 : ℕ) : ℚ) 3601) =
      round64 ((3899972229936129 : ℚ) / 100000000000000) := by
    show f64add ((38 : ℤ) : ℚ) (f64div ((3600 : ℕ) : ℚ) 3601) =
      round64 ((3899972229936129 : ℚ) / 100000000000000)
    rw [hdiv]
    have hL : f64add ((38 : ℤ) : ℚ)
        ((9004697949754949 : ℚ) / 9007199254740992) =
        ((5488722962967385 : ℤ) : ℚ) * 2 ^ ((5 : ℤ) - 52) := by
      show round64 (((38 : ℤ) : ℚ) +
          (9004697949754949 : ℚ) / 9007199254740992) = _
      exact round64_eq_of (by norm_num) (by push_cast; norm_num)
        (by push_cast; norm_num) (by push_cast; norm_num)
        (by push_cast; norm_num)
    have hR : round64 ((3899972229936129 : ℚ) / 100000000000000) =
        ((5488722962967385 : ℤ) : ℚ) * 2 ^ ((5 : ℤ) - 52) :=
      round64_eq_of (by norm_num) (by norm_num) (by norm_num) (by norm_num)
        (by norm_num)
    rw [hL, hR]
  rw [heval, hlon, hlat]
